import Mathlib

/-
  Verification of the CommandProcessor core (src/firmware/CommandProcessor).

  The C module is embedded shallowly: C strings become `List Char` (the NUL
  terminator is implicit: reading past the end of a list yields the NUL
  character), the process-wide static state becomes the structure `CPState`,
  and each C function becomes a Lean function of the same name.  Places where
  the C code reads memory outside an allocation (the history duplicate check
  on an empty history, the tab-completion suffix pointer) are made explicit
  junk-parameters of the corresponding functions, so theorems can quantify
  over what the out-of-bounds memory happens to contain.
-/

set_option maxRecDepth 10000

/-- RUNRESULT_T from CommandProcessor.h: `runexit` asks the processor to stop,
`runok` keeps it running. -/
inductive RUNRESULT where
  | runexit
  | runok
deriving Repr, DecidableEq

export RUNRESULT (runexit runok)

/-- ADDRESULT_T from CommandProcessor.h. -/
inductive ADDRESULT where
  | addfailed
  | addok
deriving Repr, DecidableEq

export ADDRESULT (addfailed addok)

/-- One byte-level output event: `ch b` is a call `cfg.putch b`, `line s` is a
call `cfg.puts s` (the user-provided puts appends the line terminator). -/
inductive OutEvt where
  | ch (b : Nat)
  | line (s : List Char)
deriving Repr, DecidableEq

/-- The NUL character that terminates C strings. -/
def nulChar : Char := Char.ofNat 0

/-- Read the character a C string pointer refers to: the head of the list, or
NUL once the list is exhausted. -/
def headChar : List Char → Char
  | [] => nulChar
  | c :: _ => c

/-- The byte at offset `i` of a C string: list entry `i`, or NUL past the end. -/
def charAtIdx (l : List Char) (i : Nat) : Char := headChar (l.drop i)

/-- mytolower (CommandProcessor.c lines 650-655): fold an upper-case ASCII
letter to lower case, leave everything else alone. -/
def mytolower (a : Char) : Char :=
  if 'A' ≤ a ∧ a ≤ 'Z' then Char.ofNat (a.toNat - 'A'.toNat + 'a'.toNat) else a

/-- One comparison step of mystrnicmp: the difference
`mytolower (*l) - mytolower (*r)` as a signed integer. -/
def cmpChar (l r : List Char) : Int :=
  (mytolower (headChar l)).toNat - ((mytolower (headChar r)).toNat : Int)

/-- The do-while loop of mystrnicmp (CommandProcessor.c lines 672-675), for a
count `n ≥ 1`: compare one character; continue while the result is zero, the
next left character is not NUL, and the decremented count is still positive. -/
def mystrnicmpLoop : Nat → List Char → List Char → Int
  | 0, _, _ => 0
  | 1, l, r => cmpChar l r
  | n + 2, l, r =>
    if cmpChar l r = 0 ∧ headChar (l.drop 1) ≠ nulChar then
      mystrnicmpLoop (n + 1) (l.drop 1) (r.drop 1)
    else cmpChar l r

/-- mystrnicmp (CommandProcessor.c lines 669-682): case-insensitive compare of
at most `n` characters, with the final result clamped to -1, 0 or +1. -/
def mystrnicmp (l r : List Char) (n : Nat) : Int :=
  if n = 0 then 0
  else
    let result := mystrnicmpLoop n l r
    if result < -1 then -1 else if result > 1 then 1 else result

/-- The C library strncmp used at CommandProcessor.c line 243: compare at most
`n` characters, stopping at a NUL on both sides. -/
def strncmp : List Char → List Char → Nat → Int
  | _, _, 0 => 0
  | l, r, n + 1 =>
    if headChar l = headChar r then
      if headChar l = nulChar then 0 else strncmp (l.drop 1) (r.drop 1) n
    else ((headChar l).toNat : Int) - (headChar r).toNat

/-- myisprint (CommandProcessor.c lines 713-718): printable standard ASCII. -/
def myisprint (c : Nat) : Bool := 32 ≤ c ∧ c ≤ 126

/-- mystrcat (CommandProcessor.c lines 696-702): append `src` (up to its NUL)
to the end of `dst`; on NUL-free lists this is list concatenation. -/
def mystrcat (dst src : List Char) : List Char := dst ++ src

/-- The `strchr(buffer, ' ')` computation of CommandMatches: offset of the
first space of the string, if any. -/
def findSpaceIdx : List Char → Option Nat
  | [] => none
  | c :: rest => if c = ' ' then some 0 else (findSpaceIdx rest).map (· + 1)

/-- `compareLength` as computed at CommandProcessor.c lines 229-236: the index
of the first space of the typed text, or its full length if it has none. -/
def compareLength (b : List Char) : Nat := (findSpaceIdx b).getD b.length

/-- The `space` pointer of CommandMatches after it is advanced past the
delimiter: the text after the first space, or the empty string if there is no
space (the pointer then rests on the NUL terminator). -/
def paramsOf (b : List Char) : List Char :=
  match findSpaceIdx b with
  | some i => b.drop (i + 1)
  | none => []

/-- CMD_T from CommandProcessor.h: a caller-owned command descriptor. -/
structure CMD where
  command : List Char
  helptext : List Char
  callback : List Char → RUNRESULT
  visible : Bool

/-- The per-candidate comparison of CommandMatches (CommandProcessor.c lines
240-243): mystrnicmp under CFG_CASE_INSENSITIVE, strncmp otherwise. -/
def cmpFn (caseins : Bool) (l r : List Char) (n : Nat) : Int :=
  if caseins then mystrnicmp l r n else strncmp l r n

/-- The scan loop of CommandMatches (CommandProcessor.c lines 237-252): walk
all links, counting candidates whose name matches the typed text up to
`compareLength`, remembering the last matching command. -/
def matchScanAux (caseins : Bool) (b : List Char) (n : Nat)
    (acc : Nat × Option CMD) : List CMD → Nat × Option CMD
  | [] => acc
  | m :: rest =>
    matchScanAux caseins b n
      (if cmpFn caseins b m.command n = 0 then (acc.1 + 1, some m) else acc) rest

/-- Scan of the whole registry with the comparison window derived from the
typed text. -/
def matchScan (caseins : Bool) (cmds : List CMD) (b : List Char) :
    Nat × Option CMD :=
  matchScanAux caseins b (compareLength b) (0, none) cmds

/-- EraseChars (CommandProcessor.c lines 403-409): for each character to wipe,
emit backspace, space, backspace. -/
def EraseChars (n : Nat) : List OutEvt :=
  (List.replicate n [OutEvt.ch 8, OutEvt.ch 32, OutEvt.ch 8]).flatten

/-- EchoString (CommandProcessor.c lines 398-401): emit each character. -/
def EchoString (s : List Char) : List OutEvt := s.map (fun c => OutEvt.ch c.toNat)

/-- Everything CommandMatches communicates back to its caller: the match
count, the last matching command, the parameter substring, the (possibly
rewritten) line buffer, and the output it produced while canonicalizing. -/
structure MatchResult where
  foundCount : Nat
  menu : Option CMD
  params : List Char
  buffer : List Char
  out : List OutEvt

/-- CommandMatches (CommandProcessor.c lines 220-283).  When `exec` is set and
exactly one command matches a typed prefix that differs from the canonical
name in length or case, the buffer is rewritten to
`name ++ " " ++ parameters`, the typed characters are erased from the display
and the corrected text re-echoed, and the parameter pointer is recomputed from
the rewritten buffer. -/
def CommandMatches (caseins : Bool) (b : List Char) (exec : Bool)
    (cmds : List CMD) : MatchResult :=
  if b.length = 0 then ⟨0, none, [], b, []⟩
  else
    let cl := compareLength b
    let args := paramsOf b
    let scan := matchScan caseins cmds b
    match scan.2 with
    | none => ⟨scan.1, none, args, b, []⟩
    | some m =>
      if scan.1 = 1 ∧ exec ∧
          (cl < m.command.length ∨ strncmp b m.command cl ≠ 0) then
        let newBuf := m.command ++ ' ' :: args
        let newParams :=
          match findSpaceIdx newBuf with
          | some i => newBuf.drop (i + 1)
          | none => []
        ⟨scan.1, some m, newParams, newBuf,
          EraseChars b.length ++ EchoString newBuf⟩
      else ⟨scan.1, some m, args, b, []⟩

/-- The text of `" *** non-unique command ignored      try 'Help' ***"`
(CommandProcessor.c line 530); the quote marks around Help are built from
their ASCII code. -/
def msgNonUnique : List Char :=
  " *** non-unique command ignored      try ".toList ++
    [Char.ofNat 39] ++ "Help".toList ++ [Char.ofNat 39] ++ " ***".toList

/-- The text of `" *** huh?                            try 'Help' ***"`
(CommandProcessor.c line 532). -/
def msgHuh : List Char :=
  " *** huh?                            try ".toList ++
    [Char.ofNat 39] ++ "Help".toList ++ [Char.ofNat 39] ++ " ***".toList

/-- The process-wide state of the CommandProcessor: the `cfg` structure, the
registry linked list, the line buffer, the history buffer and the transient
input-processing statics (CommandProcessor.c lines 51-87). -/
structure CPState where
  caseinsensitive : Bool
  echo : Bool
  bufferSize : Nat
  historyDepth : Nat
  cmds : List CMD
  buffer : List Char
  history : List (List Char)
  whereInHistory : Int
  leadinChar : Bool
  showPrompt : Bool
  showSignOnBanner : Bool

/-- The history insertion of ProcessStandardSequence (CommandProcessor.c lines
519-527): when the store is full, `historyCount` is decremented and all
entries shift one slot toward 0 before the new line is written at the tail;
`whereInHistory` is left at the slot the new line was stored in.  With depth
0 the line is written one slot before the allocation (index -1 after the
decrement), so no stored entry changes and `whereInHistory` becomes -1. -/
def pushHistory (b : List Char) (hist : List (List Char)) (depth : Nat) :
    List (List Char) × Int :=
  if hist.length = depth then
    if depth = 0 then ([], -1)
    else (hist.drop 1 ++ [b], (depth : Int) - 1)
  else (hist ++ [b], (hist.length : Int))

/-- ProcessComplexSequence (CommandProcessor.c lines 412-451): interpret the
byte following a lead-in.  Returns the replacement character handed on to
ProcessStandardSequence, the new state and the output produced.  The up-arrow
guard `historyCount && --whereInHistory >= 0` pre-decrements; when it fails
`whereInHistory` is reset to 0 and the byte is turned into ESC. -/
def ProcessComplexSequence (c : Nat) (s : CPState) :
    Nat × CPState × List OutEvt :=
  if c = 0x42 ∨ c = 0x50 then
    if s.history.length ≠ 0 ∧ s.whereInHistory < (s.history.length : Int) then
      let e := s.history.getD s.whereInHistory.toNat []
      (0, { s with
              buffer := e,
              whereInHistory := s.whereInHistory + 1,
              leadinChar := false },
        EraseChars s.buffer.length ++ EchoString e)
    else (0, { s with leadinChar := false }, [])
  else if c = 0x41 ∨ c = 0x48 then
    if s.history.length ≠ 0 ∧ 0 ≤ s.whereInHistory - 1 then
      let w := s.whereInHistory - 1
      let e := s.history.getD w.toNat []
      (0, { s with buffer := e, whereInHistory := w, leadinChar := false },
        EraseChars s.buffer.length ++ EchoString e)
    else (0x1B, { s with whereInHistory := 0, leadinChar := false }, [])
  else (0, { s with leadinChar := false }, [])

/-- ProcessStandardSequence (CommandProcessor.c lines 454-555).  `junkPrev` is
what the memory one slot before the history allocation reads as a C string:
the duplicate check at line 517 dereferences `historyBuffer[(historyCount-1) *
cfg.bufferSize]`, which is out of bounds while the history is empty.
`junkTab` is what the memory after a command name's NUL terminator reads as a
C string: the tab handler at line 491 forms `cbk->command + strlen(buffer)`,
which is past the end of the name whenever the buffer is longer than the
name. -/
def ProcessStandardSequence (junkPrev junkTab : List Char) (c : Nat)
    (s : CPState) : RUNRESULT × CPState × List OutEvt :=
  if c = 0 then (runok, s, [])
  else if c = 0x5B then (runok, { s with leadinChar := true }, [])
  else if c = 0xE0 then (runok, { s with leadinChar := true }, [])
  else if c = 0x09 then
    let r := CommandMatches s.caseinsensitive s.buffer false s.cmds
    match r.menu with
    | some m =>
      if r.foundCount = 1 then
        let n := compareLength s.buffer
        if n < m.command.length then
          let p := if s.buffer.length ≤ m.command.length
            then m.command.drop s.buffer.length
            else junkTab
          (runok, { s with buffer := mystrcat s.buffer p }, EchoString p)
        else (runok, s, [])
      else (runok, s, [])
    | none => (runok, s, [])
  else if c = 0x1B then
    (runok, { s with buffer := [] }, EraseChars s.buffer.length)
  else if c = 0x08 then
    if s.buffer.length ≠ 0 then
      (runok, { s with buffer := s.buffer.dropLast }, EraseChars 1)
    else (runok, s, [OutEvt.ch 7])
  else if c = 13 ∨ c = 10 then
    if s.buffer.length ≠ 0 then
      let r := CommandMatches s.caseinsensitive s.buffer true s.cmds
      match r.menu with
      | some m =>
        if r.foundCount = 1 then
          let val := m.callback r.params
          let prevEntry := s.history.getLastD junkPrev
          if mystrnicmp r.buffer prevEntry prevEntry.length ≠ 0 then
            let h := pushHistory r.buffer s.history s.historyDepth
            (val, { s with
                buffer := [],
                history := h.1,
                whereInHistory := h.2,
                showPrompt := true }, r.out)
          else
            (val, { s with buffer := [], showPrompt := true }, r.out)
        else if r.foundCount > 1 then
          (runok, { s with buffer := [], showPrompt := true },
            r.out ++ [OutEvt.line msgNonUnique])
        else
          (runok, { s with buffer := [], showPrompt := true },
            r.out ++ [OutEvt.line msgHuh])
      | none =>
        if r.foundCount > 1 then
          (runok, { s with buffer := [], showPrompt := true },
            r.out ++ [OutEvt.line msgNonUnique])
        else
          (runok, { s with buffer := [], showPrompt := true },
            r.out ++ [OutEvt.line msgHuh])
    else (runok, { s with buffer := [], showPrompt := true },
      [OutEvt.line []])
  else
    if myisprint c ∧ s.buffer.length < s.bufferSize then
      let b' := s.buffer ++ [Char.ofNat c]
      let r := CommandMatches s.caseinsensitive b' false s.cmds
      if r.foundCount ≠ 0 then (runok, { s with buffer := b' }, [OutEvt.ch c])
      else (runok, s, [OutEvt.ch 7])
    else (runok, s, [OutEvt.ch 7])

/-- CommandProcessor_Run (CommandProcessor.c lines 590-612): show the sign-on
banner once, emit the prompt when owed and echo is on, then if a byte is
available route it through the complex-sequence decoder and the standard
handler.  The local `val` is initialized to runok and never reassigned: the
value returned by ProcessStandardSequence at line 609 is dropped, so Run
returns runok on every call. -/
def CommandProcessor_Run (junkPrev junkTab : List Char) (avail : Bool)
    (input : Nat) (s : CPState) : RUNRESULT × CPState × List OutEvt :=
  let val : RUNRESULT := runok
  let s0 := if s.showSignOnBanner then { s with showSignOnBanner := false } else s
  let p : CPState × List OutEvt :=
    if s0.showPrompt ∧ s0.echo
    then ({ s0 with showPrompt := false }, [OutEvt.ch '>'.toNat])
    else (s0, [])
  if avail then
    let step :=
      if p.1.leadinChar then ProcessComplexSequence input p.1
      else (input, p.1, ([] : List OutEvt))
    let r := ProcessStandardSequence junkPrev junkTab step.1 step.2.1
    (val, r.2.1, p.2 ++ step.2.2 ++ r.2.2)
  else (val, p.1, p.2)

/-- The state change caused by one available input byte (the byte path of
CommandProcessor_Run). -/
def processInputByte (junkPrev junkTab : List Char) (c : Nat) (s : CPState) :
    CPState :=
  let step :=
    if s.leadinChar then ProcessComplexSequence c s
    else (c, s, ([] : List OutEvt))
  ((ProcessStandardSequence junkPrev junkTab step.1 step.2.1).2).1

/-- Feed a list of input bytes one at a time. -/
def runBytes (junkPrev junkTab : List Char) (bytes : List Nat) (s : CPState) :
    CPState :=
  bytes.foldl (fun st b => processInputByte junkPrev junkTab b st) s

/-- The linked-list insertion of CommandProcessor_Add (CommandProcessor.c
lines 377-394): walk while the current node's name is strictly below the new
name (mystrnicmp limited to the new name's length).  The `prev == head` test
cannot tell "no step taken" from "exactly one step taken", and in both cases
the new node is installed in front of the old head. -/
def addLink (m : CMD) (l : List CMD) : List CMD :=
  match l with
  | [] => [m]
  | _ =>
    let k := (l.takeWhile
      (fun x => mystrnicmp x.command m.command m.command.length < 0)).length
    if k ≤ 1 then m :: l
    else l.take k ++ m :: l.drop k

/-- The registry state touched by CommandProcessor_Add: the command sequence
and the tracked longest name length. -/
structure RegState where
  cmds : List CMD
  longest : Nat

/-- CommandProcessor_Add (CommandProcessor.c lines 362-396).  `allocOk` tells
whether the malloc of the link node succeeds.  The longest-name tracking at
lines 367-368 runs before the allocation is attempted. -/
def CommandProcessor_Add (allocOk : Bool) (m : CMD) (s : RegState) :
    ADDRESULT × RegState :=
  let longest' := max s.longest m.command.length
  if allocOk then (addok, ⟨addLink m s.cmds, longest'⟩)
  else (addfailed, ⟨s.cmds, longest'⟩)

/-- The line-buffer allocation of CommandProcessor_Init (CommandProcessor.c
lines 322-324): the requested maximum command length is raised to a floor of
6 and exactly that many bytes are obtained for the line buffer. -/
def initBufferAlloc (maxCmdLen : Nat) : Nat :=
  if maxCmdLen < 6 then 6 else maxCmdLen

/-- The byte offsets stored into the line buffer by the tentative append of
the default branch of ProcessStandardSequence (CommandProcessor.c lines
542-543): `buffer[keycount++] = (char)c; buffer[keycount] = 0;`.  The branch
is guarded by `keycount < cfg.bufferSize`. -/
def tentativeAppendWrites (keycount : Nat) : List Nat := [keycount, keycount + 1]

/-- Case-insensitive alphabetical ordering of a name sequence, each adjacent
pair compared over the shorter of the two names. -/
def orderedCI : List (List Char) → Bool
  | a :: b :: rest =>
    (if mystrnicmp a b (min a.length b.length) ≤ 0 then true else false) &&
      orderedCI (b :: rest)
  | _ => true

/- ===== helper lemmas about the embedded C string primitives ===== -/

theorem charNat_inj {a b : Char} (h : a.toNat = b.toNat) : a = b := by
  rw [← Char.ofNat_toNat a, ← Char.ofNat_toNat b, h]

theorem charAtIdx_zero (l : List Char) : charAtIdx l 0 = headChar l := by
  simp [charAtIdx]

theorem charAtIdx_one (l : List Char) : charAtIdx l 1 = headChar (l.drop 1) := rfl

theorem charAtIdx_drop (l : List Char) (d i : Nat) :
    charAtIdx (l.drop d) i = charAtIdx l (d + i) := by
  simp [charAtIdx, List.drop_drop]

theorem charAtIdx_append_left {l : List Char} (x : List Char) {i : Nat}
    (h : i < l.length) : charAtIdx (l ++ x) i = charAtIdx l i := by
  induction l generalizing i with
  | nil => simp at h
  | cons c rest ih =>
    cases i with
    | zero => rfl
    | succ j =>
      simp only [List.length_cons, Nat.succ_lt_succ_iff] at h
      simpa [charAtIdx] using ih h

theorem charAtIdx_append_right (l x : List Char) (k : Nat) :
    charAtIdx (l ++ x) (l.length + k) = charAtIdx x k := by
  induction l with
  | nil => simp
  | cons c rest ih => simpa [charAtIdx, Nat.succ_add] using ih

theorem charAtIdx_take {l : List Char} {n i : Nat} (h : i < n) :
    charAtIdx (l.take n) i = charAtIdx l i := by
  induction l generalizing n i with
  | nil => simp
  | cons c rest ih =>
    cases n with
    | zero => exact absurd h (Nat.not_lt_zero i)
    | succ m =>
      cases i with
      | zero => rfl
      | succ j =>
        simpa [charAtIdx] using ih (Nat.lt_of_succ_lt_succ h)

theorem charAtIdx_map (f : Char → Char) {l : List Char} {i : Nat}
    (h : i < l.length) : charAtIdx (l.map f) i = f (charAtIdx l i) := by
  induction l generalizing i with
  | nil => simp at h
  | cons c rest ih =>
    cases i with
    | zero => rfl
    | succ j =>
      simp only [List.length_cons, Nat.succ_lt_succ_iff] at h
      simpa [charAtIdx] using ih h

theorem charAtIdx_getD (l : List Char) (i : Nat) :
    charAtIdx l i = l.getD i nulChar := by
  induction l generalizing i with
  | nil => simp [charAtIdx, headChar]
  | cons c rest ih =>
    cases i with
    | zero => rfl
    | succ j => simpa [charAtIdx] using ih j

theorem charAtIdx_of_take_eq {l l' : List Char} {n : Nat}
    (h : l.take n = l'.take n) {i : Nat} (hi : i < n) :
    charAtIdx l i = charAtIdx l' i := by
  rw [← @charAtIdx_take l n i hi, ← @charAtIdx_take l' n i hi, h]

/- ===== findSpaceIdx / compareLength ===== -/

theorem findSpaceIdx_lt_length {l : List Char} {j : Nat}
    (h : findSpaceIdx l = some j) : j < l.length := by
  induction l generalizing j with
  | nil => simp [findSpaceIdx] at h
  | cons c rest ih =>
    by_cases hc : c = ' '
    · simp [findSpaceIdx, hc] at h
      subst h
      simp
    · simp [findSpaceIdx, hc] at h
      obtain ⟨j', hj', rfl⟩ := h
      have := ih hj'
      simp only [List.length_cons]
      omega

theorem findSpaceIdx_append_of_some {l : List Char} {j : Nat}
    (h : findSpaceIdx l = some j) (x : List Char) :
    findSpaceIdx (l ++ x) = some j := by
  induction l generalizing j with
  | nil => simp [findSpaceIdx] at h
  | cons c rest ih =>
    by_cases hc : c = ' '
    · simp [findSpaceIdx, hc] at h ⊢
      omega
    · simp [findSpaceIdx, hc] at h ⊢
      obtain ⟨j', hj', rfl⟩ := h
      exact ⟨j', ih hj', rfl⟩

theorem compareLength_le_length (b : List Char) : compareLength b ≤ b.length := by
  unfold compareLength
  cases h : findSpaceIdx b with
  | none => simp
  | some j => simpa using Nat.le_of_lt (findSpaceIdx_lt_length h)

theorem findSpaceIdx_append_of_none {l : List Char}
    (h : findSpaceIdx l = none) (x : List Char) :
    findSpaceIdx (l ++ x) = (findSpaceIdx x).map (· + l.length) := by
  induction l with
  | nil => simp
  | cons c rest ih =>
    by_cases hc : c = ' '
    · simp [findSpaceIdx, hc] at h
    · simp only [findSpaceIdx, hc, if_false] at h
      cases hr : findSpaceIdx rest with
      | some k => rw [hr] at h; simp at h
      | none =>
        simp only [List.cons_append, findSpaceIdx, hc, if_false, List.append_eq]
        rw [ih hr]
        cases findSpaceIdx x with
        | none => rfl
        | some k => simp [Nat.add_assoc]

theorem findSpaceIdx_take_none {l : List Char} (h : findSpaceIdx l = none)
    (n : Nat) : findSpaceIdx (l.take n) = none := by
  induction l generalizing n with
  | nil => simp [findSpaceIdx]
  | cons c rest ih =>
    by_cases hc : c = ' '
    · simp [findSpaceIdx, hc] at h
    · cases n with
      | zero => simp [findSpaceIdx]
      | succ m =>
        simp only [findSpaceIdx, hc, if_false] at h
        cases hr : findSpaceIdx rest with
        | some k => rw [hr] at h; simp at h
        | none =>
          simp only [List.take_succ_cons, findSpaceIdx, hc, if_false, ih hr]
          rfl

theorem findSpaceIdx_take_some {l : List Char} {j : Nat}
    (h : findSpaceIdx l = some j) {n : Nat} (hn : j < n) :
    findSpaceIdx (l.take n) = some j := by
  induction l generalizing j n with
  | nil => simp [findSpaceIdx] at h
  | cons c rest ih =>
    by_cases hc : c = ' '
    · simp [findSpaceIdx, hc] at h
      subst h
      cases n with
      | zero => omega
      | succ m => simp [findSpaceIdx, hc]
    · simp [findSpaceIdx, hc] at h
      obtain ⟨j', hj', rfl⟩ := h
      cases n with
      | zero => omega
      | succ m =>
        simp only [List.take_succ_cons, findSpaceIdx, hc, if_false,
          ih hj' (Nat.lt_of_succ_lt_succ hn)]
        rfl

theorem findSpaceIdx_take_self {l : List Char} {j : Nat}
    (h : findSpaceIdx l = some j) : findSpaceIdx (l.take j) = none := by
  induction l generalizing j with
  | nil => simp [findSpaceIdx] at h
  | cons c rest ih =>
    by_cases hc : c = ' '
    · simp [findSpaceIdx, hc] at h
      subst h
      simp [findSpaceIdx]
    · simp [findSpaceIdx, hc] at h
      obtain ⟨j', hj', rfl⟩ := h
      simp only [List.take_succ_cons, findSpaceIdx, hc, if_false, ih hj']
      rfl

theorem findSpaceIdx_take_compareLength (b : List Char) :
    findSpaceIdx (b.take (compareLength b)) = none := by
  unfold compareLength
  cases h : findSpaceIdx b with
  | none => simpa using findSpaceIdx_take_none h b.length
  | some j => simpa using findSpaceIdx_take_self h

theorem compareLength_take (b : List Char) :
    compareLength (b.take (compareLength b)) = compareLength b := by
  have h := findSpaceIdx_take_compareLength b
  unfold compareLength at h ⊢
  rw [h]
  simp only [Option.getD_none, List.length_take]
  exact Nat.min_eq_left (compareLength_le_length b)

/- ===== comparison-function lemmas ===== -/

theorem take_eq_heads {l l' : List Char} {n : Nat}
    (h : l.take (n + 1) = l'.take (n + 1)) :
    headChar l = headChar l' ∧ (l.drop 1).take n = (l'.drop 1).take n := by
  cases l with
  | nil =>
    cases l' with
    | nil => exact ⟨rfl, rfl⟩
    | cons c t => simp [List.take_succ_cons] at h
  | cons c t =>
    cases l' with
    | nil => simp [List.take_succ_cons] at h
    | cons c' t' =>
      simp only [List.take_succ_cons, List.cons.injEq] at h
      exact ⟨h.1, by simpa using h.2⟩

theorem cmpChar_congr {l l' r r' : List Char} (hl : headChar l = headChar l')
    (hr : headChar r = headChar r') : cmpChar l r = cmpChar l' r' := by
  simp [cmpChar, hl, hr]

theorem cmpChar_eq_zero_iff {l r : List Char} :
    cmpChar l r = 0 ↔ mytolower (headChar l) = mytolower (headChar r) := by
  unfold cmpChar
  constructor
  · intro h
    exact charNat_inj (by omega)
  · intro h
    rw [h]
    omega

theorem mystrnicmpLoop_stable : ∀ (n : Nat) {l l' r r' : List Char},
    l.take n = l'.take n → r.take n = r'.take n →
    mystrnicmpLoop n l r = mystrnicmpLoop n l' r'
  | 0, _, _, _, _, _, _ => rfl
  | 1, l, l', r, r', hl, hr => by
    obtain ⟨h1, -⟩ := take_eq_heads hl
    obtain ⟨h2, -⟩ := take_eq_heads hr
    simp only [mystrnicmpLoop]
    exact cmpChar_congr h1 h2
  | n + 2, l, l', r, r', hl, hr => by
    obtain ⟨h1, hl2⟩ := take_eq_heads hl
    obtain ⟨h2, hr2⟩ := take_eq_heads hr
    obtain ⟨h3, -⟩ := take_eq_heads hl2
    have hc := cmpChar_congr h1 h2
    simp only [mystrnicmpLoop]
    rw [hc, h3]
    split
    · exact mystrnicmpLoop_stable (n + 1) hl2 hr2
    · rfl

theorem strncmp_stable : ∀ (n : Nat) {l l' r r' : List Char},
    l.take n = l'.take n → r.take n = r'.take n →
    strncmp l r n = strncmp l' r' n
  | 0, _, _, _, _, _, _ => rfl
  | n + 1, l, l', r, r', hl, hr => by
    obtain ⟨h1, hl2⟩ := take_eq_heads hl
    obtain ⟨h2, hr2⟩ := take_eq_heads hr
    simp only [strncmp]
    rw [h1, h2]
    split
    · split
      · rfl
      · exact strncmp_stable n hl2 hr2
    · rfl

theorem mystrnicmp_stable {n : Nat} {l l' r : List Char}
    (hl : l.take n = l'.take n) : mystrnicmp l r n = mystrnicmp l' r n := by
  unfold mystrnicmp
  rw [mystrnicmpLoop_stable n hl (rfl : r.take n = r.take n)]

theorem cmpFn_stable {ci : Bool} {n : Nat} {l l' r : List Char}
    (hl : l.take n = l'.take n) : cmpFn ci l r n = cmpFn ci l' r n := by
  cases ci with
  | true => simpa [cmpFn] using @mystrnicmp_stable n l l' r hl
  | false => simpa [cmpFn] using strncmp_stable n hl (rfl : r.take n = r.take n)

theorem mystrnicmpLoop_eq_zero_of_lower : ∀ (n : Nat) {l r : List Char},
    (∀ i < n, mytolower (charAtIdx l i) = mytolower (charAtIdx r i)) →
    mystrnicmpLoop n l r = 0
  | 0, _, _, _ => rfl
  | 1, l, r, h => by
    simp only [mystrnicmpLoop]
    exact cmpChar_eq_zero_iff.mpr (by simpa [charAtIdx_zero] using h 0 Nat.one_pos)
  | n + 2, l, r, h => by
    have h0 : cmpChar l r = 0 :=
      cmpChar_eq_zero_iff.mpr (by simpa [charAtIdx_zero] using h 0 (Nat.succ_pos _))
    simp only [mystrnicmpLoop]
    split
    · exact mystrnicmpLoop_eq_zero_of_lower (n + 1) (fun i hi => by
        rw [charAtIdx_drop, charAtIdx_drop]
        exact h (1 + i) (by omega))
    · exact h0

theorem mystrnicmp_eq_zero_of_lower {n : Nat} {l r : List Char}
    (h : ∀ i < n, mytolower (charAtIdx l i) = mytolower (charAtIdx r i)) :
    mystrnicmp l r n = 0 := by
  unfold mystrnicmp
  by_cases hn : n = 0
  · simp [hn]
  · simp only [hn, if_false]
    rw [mystrnicmpLoop_eq_zero_of_lower n h]
    rfl

theorem strncmp_eq_zero_of_charAtIdx : ∀ (n : Nat) {l r : List Char},
    (∀ i < n, charAtIdx l i = charAtIdx r i) → strncmp l r n = 0
  | 0, _, _, _ => rfl
  | n + 1, l, r, h => by
    have h0 : headChar l = headChar r := by
      simpa [charAtIdx_zero] using h 0 (Nat.succ_pos _)
    simp only [strncmp]
    rw [h0, if_pos rfl]
    split
    · rfl
    · exact strncmp_eq_zero_of_charAtIdx n (fun i hi => by
        rw [charAtIdx_drop, charAtIdx_drop]
        exact h (1 + i) (by omega))

theorem mystrnicmpLoop_head_of_eq_zero : ∀ (n : Nat) {l r : List Char},
    n ≠ 0 → mystrnicmpLoop n l r = 0 → cmpChar l r = 0
  | 0, _, _, hn, _ => absurd rfl hn
  | 1, l, r, _, h => h
  | n + 2, l, r, _, h => by
    simp only [mystrnicmpLoop] at h
    by_cases hg : cmpChar l r = 0
    · exact hg
    · rw [if_neg (fun hand => hg hand.1)] at h
      exact h

theorem mystrnicmpLoop_lower_of_eq_zero : ∀ (n : Nat) {l r : List Char},
    (∀ i, 1 ≤ i → i < n → charAtIdx l i ≠ nulChar) →
    mystrnicmpLoop n l r = 0 →
    ∀ i < n, mytolower (charAtIdx l i) = mytolower (charAtIdx r i)
  | 0, _, _, _, _, i, hi => absurd hi (Nat.not_lt_zero i)
  | 1, l, r, _, h, i, hi => by
    have : i = 0 := by omega
    subst this
    simpa [charAtIdx_zero] using cmpChar_eq_zero_iff.mp h
  | n + 2, l, r, hnz, h, i, hi => by
    have h0 : cmpChar l r = 0 :=
      mystrnicmpLoop_head_of_eq_zero (n + 2) (by omega) h
    have hnul : headChar (l.drop 1) ≠ nulChar := by
      have := hnz 1 (Nat.le_refl 1) (by omega)
      simpa [charAtIdx_one] using this
    simp only [mystrnicmpLoop, if_pos (And.intro h0 hnul)] at h
    cases i with
    | zero => simpa [charAtIdx_zero] using cmpChar_eq_zero_iff.mp h0
    | succ j =>
      have hrec := mystrnicmpLoop_lower_of_eq_zero (n + 1)
        (fun i h1 h2 => by
          rw [charAtIdx_drop]
          exact hnz (1 + i) (by omega) (by omega)) h j (by omega)
      rw [charAtIdx_drop, charAtIdx_drop] at hrec
      simpa [Nat.add_comm] using hrec

theorem strncmp_charAtIdx_of_eq_zero : ∀ (n : Nat) {l r : List Char},
    (∀ i < n, charAtIdx l i ≠ nulChar) →
    strncmp l r n = 0 →
    ∀ i < n, charAtIdx l i = charAtIdx r i
  | 0, _, _, _, _, i, hi => absurd hi (Nat.not_lt_zero i)
  | n + 1, l, r, hnz, h, i, hi => by
    by_cases h0 : headChar l = headChar r
    · have hln : headChar l ≠ nulChar := by
        have := hnz 0 (Nat.succ_pos n)
        simpa [charAtIdx_zero] using this
      simp only [strncmp, if_pos h0, if_neg hln] at h
      cases i with
      | zero => simpa [charAtIdx_zero] using h0
      | succ j =>
        have hrec := strncmp_charAtIdx_of_eq_zero n
          (fun i hlt => by
            rw [charAtIdx_drop]
            exact hnz (1 + i) (by omega)) h j (by omega)
        rw [charAtIdx_drop, charAtIdx_drop] at hrec
        simpa [Nat.add_comm] using hrec
    · exfalso
      simp only [strncmp, if_neg h0] at h
      exact h0 (charNat_inj (by omega))

theorem strncmp_zero_mono : ∀ (k n : Nat) {l r : List Char}, k ≤ n →
    strncmp l r n = 0 → strncmp l r k = 0
  | 0, _, _, _, _, _ => rfl
  | k + 1, 0, _, _, hk, _ => absurd hk (by omega)
  | k + 1, n + 1, l, r, hk, h => by
    by_cases h0 : headChar l = headChar r
    · by_cases hnul : headChar l = nulChar
      · simp only [strncmp, if_pos h0, if_pos hnul]
      · simp only [strncmp, if_pos h0, if_neg hnul] at h ⊢
        exact strncmp_zero_mono k n (by omega) h
    · exfalso
      simp only [strncmp, if_neg h0] at h
      exact h0 (charNat_inj (by omega))

theorem mystrnicmpLoop_zero_mono : ∀ (k n : Nat) {l r : List Char}, k ≤ n →
    mystrnicmpLoop n l r = 0 → mystrnicmpLoop k l r = 0
  | 0, _, _, _, _, _ => rfl
  | 1, n, l, r, hk, h => mystrnicmpLoop_head_of_eq_zero n (by omega) h
  | k + 2, n, l, r, hk, h => by
    have hn2 : ∃ m, n = m + 2 := ⟨n - 2, by omega⟩
    obtain ⟨m, rfl⟩ := hn2
    have h0 : cmpChar l r = 0 := mystrnicmpLoop_head_of_eq_zero (m + 2) (by omega) h
    by_cases hnul : headChar (l.drop 1) ≠ nulChar
    · simp only [mystrnicmpLoop, if_pos (And.intro h0 hnul)] at h ⊢
      exact mystrnicmpLoop_zero_mono (k + 1) (m + 1) (by omega) h
    · simp only [mystrnicmpLoop]
      rw [if_neg (fun hand => hnul hand.2)]
      exact h0

theorem mystrnicmp_eq_zero_iff {l r : List Char} {n : Nat} (hn : n ≠ 0) :
    mystrnicmp l r n = 0 ↔ mystrnicmpLoop n l r = 0 := by
  simp only [mystrnicmp, hn, if_false]
  split
  · omega
  · split <;> omega

theorem mystrnicmp_zero_mono {k n : Nat} {l r : List Char} (hk : k ≤ n)
    (h : mystrnicmp l r n = 0) : mystrnicmp l r k = 0 := by
  by_cases hk0 : k = 0
  · simp [mystrnicmp, hk0]
  · have hn0 : n ≠ 0 := by omega
    rw [mystrnicmp_eq_zero_iff hn0] at h
    rw [mystrnicmp_eq_zero_iff hk0]
    exact mystrnicmpLoop_zero_mono k n hk h

theorem cmpFn_zero_mono {ci : Bool} {k n : Nat} {l r : List Char} (hk : k ≤ n)
    (h : cmpFn ci l r n = 0) : cmpFn ci l r k = 0 := by
  cases ci with
  | true =>
    simp only [cmpFn, if_true] at *
    exact mystrnicmp_zero_mono hk (by simpa using h)
  | false =>
    simp only [cmpFn] at *
    exact strncmp_zero_mono k n hk (by simpa using h)

theorem cmpFn_eq_zero_of_charAtIdx {ci : Bool} {n : Nat} {l r : List Char}
    (h : ∀ i < n, charAtIdx l i = charAtIdx r i) : cmpFn ci l r n = 0 := by
  cases ci with
  | true =>
    simpa [cmpFn] using
      mystrnicmp_eq_zero_of_lower (fun i hi => by rw [h i hi])
  | false =>
    simpa [cmpFn] using strncmp_eq_zero_of_charAtIdx n h

/- ===== matchScan lemmas ===== -/

/-- The Bool form of "this candidate matches the typed text over window `n`". -/
def matchP (ci : Bool) (b : List Char) (n : Nat) (m : CMD) : Bool :=
  decide (cmpFn ci b m.command n = 0)

theorem matchScanAux_count (ci : Bool) (b : List Char) (n : Nat) :
    ∀ (l : List CMD) (acc : Nat × Option CMD),
    (matchScanAux ci b n acc l).1 = acc.1 + l.countP (matchP ci b n)
  | [], acc => by simp [matchScanAux]
  | m :: rest, acc => by
    simp only [matchScanAux]
    by_cases hp : cmpFn ci b m.command n = 0
    · rw [if_pos hp, matchScanAux_count ci b n rest]
      simp [List.countP_cons, matchP, hp]
      omega
    · rw [if_neg hp, matchScanAux_count ci b n rest]
      simp [List.countP_cons, matchP, hp]

theorem matchScanAux_menu (ci : Bool) (b : List Char) (n : Nat) :
    ∀ (l : List CMD) (acc : Nat × Option CMD) (m : CMD),
    (matchScanAux ci b n acc l).2 = some m →
    acc.2 = some m ∨ (m ∈ l ∧ cmpFn ci b m.command n = 0)
  | [], acc, m, h => Or.inl h
  | m' :: rest, acc, m, h => by
    simp only [matchScanAux] at h
    by_cases hp : cmpFn ci b m'.command n = 0
    · rw [if_pos hp] at h
      rcases matchScanAux_menu ci b n rest _ m h with h1 | h2
      · simp only at h1
        rcases Option.some.injEq .. ▸ h1 with rfl
        exact Or.inr ⟨List.mem_cons_self m' rest, hp⟩
      · exact Or.inr ⟨List.mem_cons_of_mem m' h2.1, h2.2⟩
    · rw [if_neg hp] at h
      rcases matchScanAux_menu ci b n rest _ m h with h1 | h2
      · exact Or.inl h1
      · exact Or.inr ⟨List.mem_cons_of_mem m' h2.1, h2.2⟩

theorem matchScan_count (ci : Bool) (cmds : List CMD) (b : List Char) :
    (matchScan ci cmds b).1 = cmds.countP (matchP ci b (compareLength b)) := by
  simpa using matchScanAux_count ci b (compareLength b) cmds (0, none)

theorem matchScan_menu {ci : Bool} {cmds : List CMD} {b : List Char} {m : CMD}
    (h : (matchScan ci cmds b).2 = some m) :
    m ∈ cmds ∧ cmpFn ci b m.command (compareLength b) = 0 := by
  rcases matchScanAux_menu ci b (compareLength b) cmds (0, none) m h with h1 | h2
  · simp at h1
  · exact h2

theorem matchScan_count_pos {ci : Bool} {cmds : List CMD} {b : List Char}
    {m : CMD} (hm : m ∈ cmds) (hp : cmpFn ci b m.command (compareLength b) = 0) :
    1 ≤ (matchScan ci cmds b).1 := by
  rw [matchScan_count]
  exact List.countP_pos_iff.mpr ⟨m, hm, by simp [matchP, hp]⟩

theorem matchScan_count_stable {ci : Bool} {cmds : List CMD} {b b' : List Char}
    (hk : compareLength b' = compareLength b)
    (ht : b'.take (compareLength b) = b.take (compareLength b)) :
    (matchScan ci cmds b').1 = (matchScan ci cmds b).1 := by
  rw [matchScan_count, matchScan_count, hk]
  apply List.countP_congr
  intro m _
  simp only [matchP, decide_eq_decide]
  rw [cmpFn_stable ht]

/- ===== the buffer invariant (claim C8) ===== -/

/-- The line respects the prefix rule: its content up to its first space
matches at least one registered command under the configured case rule. -/
def lineMatches (ci : Bool) (cmds : List CMD) (b : List Char) : Prop :=
  1 ≤ (matchScan ci cmds b).1

/-- No NUL character occurs in the comparison window of the line (C strings
cannot contain NUL, so this is a faithfulness condition of the embedding). -/
def nulFreeLine (b : List Char) : Prop :=
  ∀ i < compareLength b, charAtIdx b i ≠ nulChar

/-- A line the editor may hold: empty, or matching and NUL-free. -/
def goodLine (ci : Bool) (cmds : List CMD) (b : List Char) : Prop :=
  b = [] ∨ (lineMatches ci cmds b ∧ nulFreeLine b)

/-- All registered command names are NUL-free. -/
def cmdsNulFree (cmds : List CMD) : Prop :=
  ∀ m ∈ cmds, ∀ i < m.command.length, charAtIdx m.command i ≠ nulChar

/-- The inductive state invariant behind claim C8. -/
def cpInv (s : CPState) : Prop :=
  goodLine s.caseinsensitive s.cmds s.buffer ∧
  (∀ e ∈ s.history,
    lineMatches s.caseinsensitive s.cmds e ∧ nulFreeLine e) ∧
  0 ≤ s.whereInHistory ∧
  s.whereInHistory ≤ (s.history.length : Int) ∧
  s.history.length ≤ s.historyDepth ∧
  1 ≤ s.historyDepth ∧
  cmdsNulFree s.cmds

instance (ci : Bool) (cmds : List CMD) (b : List Char) :
    Decidable (lineMatches ci cmds b) := by
  unfold lineMatches
  infer_instance

instance (b : List Char) : Decidable (nulFreeLine b) := by
  unfold nulFreeLine
  infer_instance

instance (ci : Bool) (cmds : List CMD) (b : List Char) :
    Decidable (goodLine ci cmds b) := by
  unfold goodLine
  infer_instance

instance (cmds : List CMD) : Decidable (cmdsNulFree cmds) := by
  unfold cmdsNulFree
  infer_instance

instance (s : CPState) : Decidable (cpInv s) := by
  unfold cpInv
  infer_instance

/-- The canonicalized buffer `name ++ " " ++ args` built by CommandMatches
matches the command it was rewritten from, and is NUL-free in its comparison
window. -/
theorem goodLine_canonical {ci : Bool} {cmds : List CMD} {m : CMD}
    (hm : m ∈ cmds) (hnf : cmdsNulFree cmds) (args : List Char) :
    lineMatches ci cmds (m.command ++ ' ' :: args) ∧
    nulFreeLine (m.command ++ ' ' :: args) := by
  set newBuf := m.command ++ ' ' :: args with hdef
  have hk : compareLength newBuf ≤ m.command.length := by
    unfold compareLength
    cases hfs : findSpaceIdx m.command with
    | some j =>
      rw [findSpaceIdx_append_of_some hfs]
      exact Nat.le_of_lt (findSpaceIdx_lt_length hfs)
    | none =>
      rw [findSpaceIdx_append_of_none hfs]
      simp [findSpaceIdx]
  have hchar : ∀ i < compareLength newBuf,
      charAtIdx newBuf i = charAtIdx m.command i := by
    intro i hi
    exact charAtIdx_append_left _ (by omega)
  constructor
  · exact matchScan_count_pos hm
      (cmpFn_eq_zero_of_charAtIdx hchar)
  · intro i hi
    rw [hchar i hi]
    exact hnf m hm i (by omega)

/-- Appending anything after a line that contains a space leaves the match
count and the NUL-free window unchanged. -/
theorem goodLine_append_after_space {ci : Bool} {cmds : List CMD}
    {b : List Char} {j : Nat} (hfs : findSpaceIdx b = some j)
    (hgl : lineMatches ci cmds b ∧ nulFreeLine b) (x : List Char) :
    lineMatches ci cmds (b ++ x) ∧ nulFreeLine (b ++ x) := by
  have hj : j < b.length := findSpaceIdx_lt_length hfs
  have hcl : compareLength b = j := by simp [compareLength, hfs]
  have hcl' : compareLength (b ++ x) = j := by
    simp [compareLength, findSpaceIdx_append_of_some hfs]
  have htake : (b ++ x).take (compareLength b) = b.take (compareLength b) := by
    rw [hcl]
    exact List.take_append_of_le_length (by omega)
  constructor
  · have := @matchScan_count_stable ci cmds b (b ++ x)
      (hcl'.trans hcl.symm) htake
    unfold lineMatches at hgl ⊢
    omega
  · intro i hi
    rw [hcl'] at hi
    rw [charAtIdx_append_left _ (by omega)]
    exact hgl.2 i (by omega)

/-- Tab completion on a spaceless buffer extends it with the remainder of the
unique match's name; the result still matches that command. -/
theorem goodLine_tab_extend {ci : Bool} {cmds : List CMD} {b : List Char}
    {m : CMD} (hfs : findSpaceIdx b = none) (hb : b ≠ [])
    (hm : m ∈ cmds) (hnf : cmdsNulFree cmds)
    (hmatch : cmpFn ci b m.command b.length = 0)
    (hlt : b.length < m.command.length)
    (hnz : ∀ i < b.length, charAtIdx b i ≠ nulChar) :
    lineMatches ci cmds (b ++ m.command.drop b.length) ∧
    nulFreeLine (b ++ m.command.drop b.length) := by
  set b' := b ++ m.command.drop b.length with hb'
  have hblen : 1 ≤ b.length := by
    cases b with
    | nil => exact absurd rfl hb
    | cons c t => simp
  have hlen : b'.length = m.command.length := by
    rw [hb', List.length_append, List.length_drop]
    omega
  have hk : compareLength b' ≤ m.command.length := by
    have := compareLength_le_length b'
    omega
  have hhigh : ∀ t : Nat, charAtIdx b' (b.length + t) = charAtIdx m.command (b.length + t) := by
    intro t
    rw [hb', charAtIdx_append_right, charAtIdx_drop]
  have hlow : ∀ i < b.length, charAtIdx b' i = charAtIdx b i := by
    intro i hi
    exact charAtIdx_append_left _ hi
  have hsplit : ∀ i : Nat, b.length ≤ i → charAtIdx b' i = charAtIdx m.command i := by
    intro i hge
    obtain ⟨t, rfl⟩ : ∃ t, i = b.length + t := ⟨i - b.length, by omega⟩
    exact hhigh t
  have hnul : nulFreeLine b' := by
    intro i hi
    by_cases hcase : i < b.length
    · rw [hlow i hcase]
      exact hnz i hcase
    · rw [hsplit i (by omega)]
      exact hnf m hm i (by omega)
  refine ⟨?_, hnul⟩
  have hcmp : cmpFn ci b' m.command (compareLength b') = 0 := by
    cases ci with
    | true =>
      simp only [cmpFn, if_true] at hmatch ⊢
      have hloop : mystrnicmpLoop b.length b m.command = 0 :=
        (mystrnicmp_eq_zero_iff (by omega)).mp (by simpa using hmatch)
      have hlower := mystrnicmpLoop_lower_of_eq_zero b.length
        (fun i h1 h2 => hnz i h2) hloop
      have : mystrnicmp b' m.command (compareLength b') = 0 := by
        apply mystrnicmp_eq_zero_of_lower
        intro i hi
        by_cases hcase : i < b.length
        · rw [hlow i hcase]
          exact hlower i hcase
        · rw [hsplit i (by omega)]
      simpa using this
    | false =>
      simp only [cmpFn] at hmatch ⊢
      have heq := strncmp_charAtIdx_of_eq_zero b.length hnz (by simpa using hmatch)
      have : strncmp b' m.command (compareLength b') = 0 := by
        apply strncmp_eq_zero_of_charAtIdx
        intro i hi
        by_cases hcase : i < b.length
        · rw [hlow i hcase]
          exact heq i hcase
        · rw [hsplit i (by omega)]
      simpa using this
  exact matchScan_count_pos hm hcmp

/-- Dropping the last character of a valid line leaves a valid (or empty)
line: the comparison window only shrinks. -/
theorem goodLine_dropLast {ci : Bool} {cmds : List CMD} {b : List Char}
    (hgl : lineMatches ci cmds b ∧ nulFreeLine b) (hb : b ≠ []) :
    goodLine ci cmds b.dropLast := by
  have hblen : 1 ≤ b.length := by
    cases b with
    | nil => exact absurd rfl hb
    | cons c t => simp
  by_cases hempty : b.dropLast = []
  · exact Or.inl hempty
  right
  rw [List.dropLast_eq_take] at hempty ⊢
  set n := b.length - 1 with hn
  have hnlen : 1 ≤ n := by
    by_contra hcon
    have : n = 0 := by omega
    rw [this] at hempty
    simp at hempty
  cases hfs : findSpaceIdx b with
  | some j =>
    have hj : j < b.length := findSpaceIdx_lt_length hfs
    have hclb : compareLength b = j := by simp [compareLength, hfs]
    have hjn : j ≤ n := by
      by_contra hcon
      have : j = b.length ∧ n + 1 = b.length := by omega
      omega
    have hcl' : compareLength (b.take n) = j := by
      by_cases hjlt : j < n
      · simp [compareLength, findSpaceIdx_take_some hfs hjlt]
      · have hje : j = n := by omega
        subst hje
        rw [compareLength, findSpaceIdx_take_self hfs]
        simp
        omega
    have htake : (b.take n).take (compareLength b) = b.take (compareLength b) := by
      rw [hclb, List.take_take, Nat.min_eq_left hjn]
    constructor
    · have := @matchScan_count_stable ci cmds b (b.take n)
        (hcl'.trans hclb.symm) htake
      unfold lineMatches at hgl ⊢
      omega
    · intro i hi
      rw [hcl'] at hi
      rw [charAtIdx_take (by omega)]
      exact hgl.2 i (by omega)
  | none =>
    have hclb : compareLength b = b.length := by simp [compareLength, hfs]
    have hcl' : compareLength (b.take n) = n := by
      rw [compareLength, findSpaceIdx_take_none hfs]
      simp
      omega
    have hstep : 1 ≤ (matchScan ci cmds (b.take n)).1 := by
      have hpos := hgl.1
      unfold lineMatches at hpos
      rw [matchScan_count] at hpos
      have hcp : 0 < cmds.countP (matchP ci b (compareLength b)) := by omega
      obtain ⟨m, hm, hp⟩ := List.countP_pos_iff.mp hcp
      have hp0 : cmpFn ci b m.command (compareLength b) = 0 := by
        simpa [matchP] using hp
      have hp1 : cmpFn ci b m.command n = 0 :=
        cmpFn_zero_mono (by omega) hp0
      have hp2 : cmpFn ci (b.take n) m.command n = 0 := by
        rw [@cmpFn_stable ci n (b.take n) b m.command
          (by rw [List.take_take, Nat.min_self])]
        exact hp1
      apply matchScan_count_pos hm
      rw [hcl']
      exact hp2
    refine ⟨hstep, ?_⟩
    intro i hi
    rw [hcl'] at hi
    rw [charAtIdx_take (by omega)]
    exact hgl.2 i (by omega)

theorem printable_ne_nul {c : Nat} (h : myisprint c = true) :
    Char.ofNat c ≠ nulChar := by
  simp only [myisprint, decide_eq_true_eq] at h
  intro heq
  have h1 : (Char.ofNat c).toNat = c := by
    unfold Char.ofNat
    rw [dif_pos (Or.inl (by omega) : c.isValidChar)]
    rfl
  have h2 : (nulChar).toNat = 0 := rfl
  rw [heq, h2] at h1
  omega

/-- Appending one non-NUL character keeps the comparison window NUL-free. -/
theorem nulFreeLine_append_char {b : List Char} {c : Char}
    (hnf : nulFreeLine b) (hc : c ≠ nulChar) : nulFreeLine (b ++ [c]) := by
  intro i hi
  cases hfs : findSpaceIdx b with
  | some j =>
    have hj : j < b.length := findSpaceIdx_lt_length hfs
    have hcl : compareLength (b ++ [c]) = j := by
      simp [compareLength, findSpaceIdx_append_of_some hfs]
    rw [hcl] at hi
    rw [charAtIdx_append_left _ (by omega)]
    exact hnf i (by simp [compareLength, hfs]; omega)
  | none =>
    have hclb : compareLength b = b.length := by simp [compareLength, hfs]
    have hcl : compareLength (b ++ [c]) ≤ b.length + 1 := by
      have := compareLength_le_length (b ++ [c])
      simpa using this
    rw [Nat.lt_iff_le_pred (by omega)] at hi
    by_cases hcase : i < b.length
    · rw [charAtIdx_append_left _ hcase]
      exact hnf i (by omega)
    · have hieq : i = b.length := by omega
      subst hieq
      have : charAtIdx (b ++ [c]) b.length = c := by
        have := charAtIdx_append_right b [c] 0
        simpa [charAtIdx_zero, headChar] using this
      rw [this]
      exact hc

theorem CommandMatches_foundCount {ci : Bool} {b : List Char} {exec : Bool}
    {cmds : List CMD} (hb : b.length ≠ 0) :
    (CommandMatches ci b exec cmds).foundCount = (matchScan ci cmds b).1 := by
  unfold CommandMatches
  rw [if_neg hb]
  cases h2 : (matchScan ci cmds b).2 with
  | none => simp [h2]
  | some m =>
    simp only [h2]
    split <;> rfl

theorem CommandMatches_menu {ci : Bool} {b : List Char} {exec : Bool}
    {cmds : List CMD} (hb : b.length ≠ 0) :
    (CommandMatches ci b exec cmds).menu = (matchScan ci cmds b).2 := by
  unfold CommandMatches
  rw [if_neg hb]
  cases h2 : (matchScan ci cmds b).2 with
  | none => simp [h2]
  | some m =>
    simp only [h2]
    split <;> rfl

theorem CommandMatches_noexec_buffer (ci : Bool) (b : List Char)
    (cmds : List CMD) : (CommandMatches ci b false cmds).buffer = b := by
  unfold CommandMatches
  by_cases hb : b.length = 0
  · rw [if_pos hb]
  · rw [if_neg hb]
    cases h2 : (matchScan ci cmds b).2 with
    | none => simp [h2]
    | some m =>
      simp only [h2]
      rw [if_neg (by simp)]

theorem CommandMatches_exec_buffer (ci : Bool) (b : List Char)
    (cmds : List CMD) (hb : b.length ≠ 0) :
    (CommandMatches ci b true cmds).buffer = b ∨
    (∃ m, (matchScan ci cmds b).2 = some m ∧
      (CommandMatches ci b true cmds).buffer = m.command ++ ' ' :: paramsOf b) := by
  unfold CommandMatches
  rw [if_neg hb]
  cases h2 : (matchScan ci cmds b).2 with
  | none => simp [h2]
  | some m =>
    simp only [h2]
    split
    · exact Or.inr ⟨m, rfl, rfl⟩
    · exact Or.inl rfl

theorem cpInv_standard (junkPrev junkTab : List Char) (c : Nat) (s : CPState)
    (h : cpInv s) : cpInv (ProcessStandardSequence junkPrev junkTab c s).2.1 := by
  obtain ⟨hbuf, hhist, hw0, hwlen, hlen, hdepth, hnf⟩ := h
  unfold ProcessStandardSequence
  by_cases hc0 : c = 0
  · simp only [if_pos hc0]
    exact ⟨hbuf, hhist, hw0, hwlen, hlen, hdepth, hnf⟩
  rw [if_neg hc0]
  by_cases hc5B : c = 0x5B
  · simp only [if_pos hc5B]
    exact ⟨hbuf, hhist, hw0, hwlen, hlen, hdepth, hnf⟩
  rw [if_neg hc5B]
  by_cases hcE0 : c = 0xE0
  · simp only [if_pos hcE0]
    exact ⟨hbuf, hhist, hw0, hwlen, hlen, hdepth, hnf⟩
  rw [if_neg hcE0]
  by_cases hc09 : c = 0x09
  · simp only [if_pos hc09]
    cases hmenu : (CommandMatches s.caseinsensitive s.buffer false s.cmds).menu with
    | none =>
      simp only [hmenu]
      exact ⟨hbuf, hhist, hw0, hwlen, hlen, hdepth, hnf⟩
    | some m =>
      simp only [hmenu]
      by_cases hfc : (CommandMatches s.caseinsensitive s.buffer false s.cmds).foundCount = 1
      · rw [if_pos hfc]
        by_cases hn : compareLength s.buffer < m.command.length
        · rw [if_pos hn]
          have hbne : s.buffer.length ≠ 0 := by
            intro hzero
            rw [List.length_eq_zero] at hzero
            rw [hzero] at hmenu
            simp [CommandMatches] at hmenu
          have hbne' : s.buffer ≠ [] := by
            intro hzero
            exact hbne (by rw [hzero]; rfl)
          have hscan : (matchScan s.caseinsensitive s.cmds s.buffer).2 = some m := by
            rw [← @CommandMatches_menu s.caseinsensitive s.buffer false s.cmds hbne]
            exact hmenu
          obtain ⟨hmem, hcmp⟩ := matchScan_menu hscan
          have hgood : lineMatches s.caseinsensitive s.cmds s.buffer ∧
              nulFreeLine s.buffer := by
            rcases hbuf with hL | hR
            · exact absurd hL hbne'
            · exact hR
          refine ⟨?_, hhist, hw0, hwlen, hlen, hdepth, hnf⟩
          cases hfs : findSpaceIdx s.buffer with
          | some j =>
            exact Or.inr (goodLine_append_after_space hfs hgood _)
          | none =>
            have hclb : compareLength s.buffer = s.buffer.length := by
              simp [compareLength, hfs]
            have hlt : s.buffer.length < m.command.length := by
              rw [hclb] at hn
              exact hn
            rw [if_pos (Nat.le_of_lt hlt)]
            have hnz : ∀ i < s.buffer.length, charAtIdx s.buffer i ≠ nulChar := by
              intro i hi
              exact hgood.2 i (by omega)
            have := goodLine_tab_extend hfs hbne' hmem hnf
              (by rw [← hclb]; exact hcmp) hlt hnz
            exact Or.inr this
        · rw [if_neg hn]
          exact ⟨hbuf, hhist, hw0, hwlen, hlen, hdepth, hnf⟩
      · rw [if_neg hfc]
        exact ⟨hbuf, hhist, hw0, hwlen, hlen, hdepth, hnf⟩
  rw [if_neg hc09]
  by_cases hc1B : c = 0x1B
  · simp only [if_pos hc1B]
    exact ⟨Or.inl rfl, hhist, hw0, hwlen, hlen, hdepth, hnf⟩
  rw [if_neg hc1B]
  by_cases hc08 : c = 0x08
  · simp only [if_pos hc08]
    by_cases hbe : s.buffer.length ≠ 0
    · rw [if_pos hbe]
      have hbne' : s.buffer ≠ [] := by
        intro hzero
        exact hbe (by rw [hzero]; rfl)
      have hgood : lineMatches s.caseinsensitive s.cmds s.buffer ∧
          nulFreeLine s.buffer := by
        rcases hbuf with hL | hR
        · exact absurd hL hbne'
        · exact hR
      exact ⟨goodLine_dropLast hgood hbne', hhist, hw0, hwlen, hlen, hdepth, hnf⟩
    · rw [if_neg hbe]
      exact ⟨hbuf, hhist, hw0, hwlen, hlen, hdepth, hnf⟩
  rw [if_neg hc08]
  by_cases hcCR : c = 13 ∨ c = 10
  · rw [if_pos hcCR]
    by_cases hbe : s.buffer.length ≠ 0
    · rw [if_pos hbe]
      have hbne' : s.buffer ≠ [] := by
        intro hzero
        exact hbe (by rw [hzero]; rfl)
      cases hmenu : (CommandMatches s.caseinsensitive s.buffer true s.cmds).menu with
      | none =>
        simp only [hmenu]
        by_cases hfc : (CommandMatches s.caseinsensitive s.buffer true s.cmds).foundCount > 1
        · rw [if_pos hfc]
          exact ⟨Or.inl rfl, hhist, hw0, hwlen, hlen, hdepth, hnf⟩
        · rw [if_neg hfc]
          exact ⟨Or.inl rfl, hhist, hw0, hwlen, hlen, hdepth, hnf⟩
      | some m =>
        simp only [hmenu]
        by_cases hfc : (CommandMatches s.caseinsensitive s.buffer true s.cmds).foundCount = 1
        · rw [if_pos hfc]
          set r := CommandMatches s.caseinsensitive s.buffer true s.cmds with hr
          by_cases hdup : mystrnicmp r.buffer (s.history.getLastD junkPrev)
              (s.history.getLastD junkPrev).length ≠ 0
          · rw [if_pos hdup]
            have hgoodr : lineMatches s.caseinsensitive s.cmds r.buffer ∧
                nulFreeLine r.buffer := by
              rcases CommandMatches_exec_buffer s.caseinsensitive s.buffer s.cmds hbe
                with hsame | ⟨m', hscan', hcanon⟩
              · rw [← hr] at hsame
                rw [hsame]
                rcases hbuf with hL | hR
                · exact absurd hL hbne'
                · exact hR
              · rw [← hr] at hcanon
                rw [hcanon]
                obtain ⟨hmem', -⟩ := matchScan_menu hscan'
                exact goodLine_canonical hmem' hnf _
            have hdp0 : s.historyDepth ≠ 0 := by omega
            unfold pushHistory
            by_cases hfull : s.history.length = s.historyDepth
            · rw [if_pos hfull, if_neg hdp0]
              have hlen2 : (s.history.drop 1 ++ [r.buffer]).length = s.historyDepth := by
                rw [List.length_append, List.length_drop]
                simp only [List.length_singleton]
                omega
              refine ⟨Or.inl rfl, ?_, ?_, ?_, ?_, hdepth, hnf⟩
              · intro e he
                rcases List.mem_append.mp he with hold | hnew
                · exact hhist e (List.mem_of_mem_drop hold)
                · rw [List.mem_singleton.mp hnew]
                  exact hgoodr
              · dsimp only
                omega
              · dsimp only
                rw [hlen2]
                omega
              · dsimp only
                rw [hlen2]
            · rw [if_neg hfull]
              have hlen2 : (s.history ++ [r.buffer]).length = s.history.length + 1 := by
                rw [List.length_append]
                rfl
              refine ⟨Or.inl rfl, ?_, ?_, ?_, ?_, hdepth, hnf⟩
              · intro e he
                rcases List.mem_append.mp he with hold | hnew
                · exact hhist e hold
                · rw [List.mem_singleton.mp hnew]
                  exact hgoodr
              · dsimp only
                omega
              · dsimp only
                rw [hlen2]
                omega
              · dsimp only
                rw [hlen2]
                omega
          · rw [if_neg hdup]
            exact ⟨Or.inl rfl, hhist, hw0, hwlen, hlen, hdepth, hnf⟩
        · rw [if_neg hfc]
          by_cases hfc2 : (CommandMatches s.caseinsensitive s.buffer true s.cmds).foundCount > 1
          · rw [if_pos hfc2]
            exact ⟨Or.inl rfl, hhist, hw0, hwlen, hlen, hdepth, hnf⟩
          · rw [if_neg hfc2]
            exact ⟨Or.inl rfl, hhist, hw0, hwlen, hlen, hdepth, hnf⟩
    · rw [if_neg hbe]
      exact ⟨Or.inl rfl, hhist, hw0, hwlen, hlen, hdepth, hnf⟩
  rw [if_neg hcCR]
  by_cases hpr : myisprint c = true ∧ s.buffer.length < s.bufferSize
  · rw [if_pos (by exact_mod_cast hpr)]
    by_cases hfc : (CommandMatches s.caseinsensitive
        (s.buffer ++ [Char.ofNat c]) false s.cmds).foundCount ≠ 0
    · rw [if_pos hfc]
      refine ⟨?_, hhist, hw0, hwlen, hlen, hdepth, hnf⟩
      dsimp only
      right
      constructor
      · have hbne : (s.buffer ++ [Char.ofNat c]).length ≠ 0 := by simp
        rw [CommandMatches_foundCount hbne] at hfc
        unfold lineMatches
        omega
      · have hnfb : nulFreeLine s.buffer := by
          rcases hbuf with hL | hR
          · rw [hL]
            intro i hi
            simp [compareLength, findSpaceIdx] at hi
          · exact hR.2
        exact nulFreeLine_append_char hnfb (printable_ne_nul hpr.1)
    · rw [if_neg hfc]
      exact ⟨hbuf, hhist, hw0, hwlen, hlen, hdepth, hnf⟩
  · rw [if_neg (by exact_mod_cast hpr)]
    exact ⟨hbuf, hhist, hw0, hwlen, hlen, hdepth, hnf⟩

theorem cpInv_complex (c : Nat) (s : CPState) (h : cpInv s) :
    cpInv (ProcessComplexSequence c s).2.1 := by
  obtain ⟨hbuf, hhist, hw0, hwlen, hlen, hdepth, hnf⟩ := h
  unfold ProcessComplexSequence
  by_cases hdown : c = 0x42 ∨ c = 0x50
  · rw [if_pos hdown]
    by_cases hg : s.history.length ≠ 0 ∧ s.whereInHistory < (s.history.length : Int)
    · rw [if_pos hg]
      have hidx : s.whereInHistory.toNat < s.history.length := by omega
      have hmem : s.history.getD s.whereInHistory.toNat [] ∈ s.history := by
        rw [List.getD_eq_getElem _ _ hidx]
        exact List.getElem_mem hidx
      refine ⟨Or.inr (hhist _ hmem), hhist, ?_, ?_, hlen, hdepth, hnf⟩
      · dsimp only
        omega
      · dsimp only
        omega
    · rw [if_neg hg]
      exact ⟨hbuf, hhist, hw0, hwlen, hlen, hdepth, hnf⟩
  rw [if_neg hdown]
  by_cases hup : c = 0x41 ∨ c = 0x48
  · rw [if_pos hup]
    by_cases hg : s.history.length ≠ 0 ∧ 0 ≤ s.whereInHistory - 1
    · rw [if_pos hg]
      have hidx : (s.whereInHistory - 1).toNat < s.history.length := by omega
      have hmem : s.history.getD (s.whereInHistory - 1).toNat [] ∈ s.history := by
        rw [List.getD_eq_getElem _ _ hidx]
        exact List.getElem_mem hidx
      refine ⟨Or.inr (hhist _ hmem), hhist, ?_, ?_, hlen, hdepth, hnf⟩
      · dsimp only
        omega
      · dsimp only
        omega
    · rw [if_neg hg]
      refine ⟨hbuf, hhist, ?_, ?_, hlen, hdepth, hnf⟩
      · dsimp only
        omega
      · dsimp only
        omega
  rw [if_neg hup]
  exact ⟨hbuf, hhist, hw0, hwlen, hlen, hdepth, hnf⟩

theorem cpInv_processInputByte (junkPrev junkTab : List Char) (c : Nat)
    (s : CPState) (h : cpInv s) :
    cpInv (processInputByte junkPrev junkTab c s) := by
  unfold processInputByte
  by_cases hl : s.leadinChar = true
  · simp only [if_pos hl]
    exact cpInv_standard junkPrev junkTab _ _ (cpInv_complex c s h)
  · simp only [if_neg hl]
    exact cpInv_standard junkPrev junkTab c s h

/- ===== concrete commands and states used in the claim theorems ===== -/

/-- A callback that keeps the processor running. -/
def cbContinue : List Char → RUNRESULT := fun _ => runok

/-- A callback that asks the processor to stop. -/
def cbStop : List Char → RUNRESULT := fun _ => runexit

def exitCmd : CMD := ⟨"Exit".toList, [], cbStop, true⟩

def exitState : CPState :=
  ⟨false, false, 10, 2, [exitCmd], "Exit".toList, [], 0, false, false, false⟩

/-- Claim C1.  For every call to Run: if the byte processed completes a submit
whose uniquely matched command callback returns the exit signal, Run returns
that exit signal to its caller; in all other cases Run returns the continue
signal.  The code violates the first half: the value ProcessStandardSequence
produces at CommandProcessor.c line 609 is never assigned to `val`, so Run
returns runok unconditionally — here the Exit callback returns runexit, the
submit handler propagates it, and Run still reports runok (so the host loop
`while (cp->Run() == runok)` in main.cpp can never terminate). -/
theorem C1_run_discards_exit_signal :
    (∀ (junkPrev junkTab : List Char) (avail : Bool) (input : Nat) (s : CPState),
      (CommandProcessor_Run junkPrev junkTab avail input s).1 = runok) ∧
    (ProcessStandardSequence [] [] 13 exitState).1 = runexit := by
  constructor
  · intro junkPrev junkTab avail input s
    unfold CommandProcessor_Run
    by_cases ha : avail = true
    · simp [ha]
    · simp [ha]
  · decide

def goCmd : CMD := ⟨"Go".toList, [], cbStop, true⟩

def gopCmd : CMD := ⟨"Gop".toList, [], cbStop, true⟩

def goState : CPState :=
  ⟨false, false, 10, 2, [goCmd, gopCmd], "Go".toList, [], 0, false, false, false⟩

def goStateCI : CPState := { goState with caseinsensitive := true }

theorem matchScan_take_eq (ci : Bool) (cmds : List CMD) (b : List Char) :
    (matchScan ci cmds b).1 = (matchScan ci cmds (b.take (compareLength b))).1 :=
  (matchScan_count_stable (compareLength_take b)
    (by rw [List.take_take, Nat.min_self])).symm

/-- Claim C2.  Match compares every candidate only up to the length of the
typed text before its first space (first conjunct: the count only depends on
that prefix of the typed text), and for registry `Go`, `Gop` submitting the
line `Go` yields match count 2, emits the ambiguous-command message, runs no
callback (both callbacks would return runexit, yet the submit handler returns
runok), and clears the buffer — under both case rules. -/
theorem C2_match_window_and_Go_Gop :
    (∀ (ci : Bool) (cmds : List CMD) (b : List Char),
      (matchScan ci cmds b).1 = (matchScan ci cmds (b.take (compareLength b))).1) ∧
    (CommandMatches false ("Go".toList) true [goCmd, gopCmd]).foundCount = 2 ∧
    (CommandMatches true ("Go".toList) true [goCmd, gopCmd]).foundCount = 2 ∧
    (ProcessStandardSequence [] [] 13 goState).2.2 = [OutEvt.line msgNonUnique] ∧
    (ProcessStandardSequence [] [] 13 goState).1 = runok ∧
    (ProcessStandardSequence [] [] 13 goState).2.1.buffer = [] ∧
    (ProcessStandardSequence [] [] 13 goStateCI).2.2 = [OutEvt.line msgNonUnique] ∧
    (ProcessStandardSequence [] [] 13 goStateCI).1 = runok ∧
    (ProcessStandardSequence [] [] 13 goStateCI).2.1.buffer = [] := by
  refine ⟨matchScan_take_eq, ?_⟩
  decide

def aCmd : CMD := ⟨['A'], [], cbContinue, true⟩

def bCmd : CMD := ⟨['B'], [], cbContinue, true⟩

/-- Claim C3.  The claim says the registry stays in case-insensitive
alphabetical order after any sequence of successful Adds.  The insertion walk
of CommandProcessor_Add cannot distinguish "insert before the head" from
"insert after the head" (`prev == head` holds in both cases, lines 387-389),
so adding "A" then "B" produces the sequence [B, A], which is not
alphabetically ordered. -/
theorem C3_add_is_not_sorted :
    (addLink bCmd (addLink aCmd [])).map (fun m => m.command) = [['B'], ['A']] ∧
    orderedCI [['B'], ['A']] = false ∧
    mystrnicmp ['B'] ['A'] 1 = 1 := by
  decide

/-- Claim C9 counterexample.  Add on allocation failure returns the failure
code and leaves the registry unchanged, but the tracked longest-name length
has already been updated (CommandProcessor.c lines 367-368 run before the
malloc at line 371): adding an 8-character name to a registry whose longest
name was 4 bumps the tracked length to 8 even though the add fails. -/
theorem C9_longest_modified_on_failure :
    (CommandProcessor_Add false ⟨"Whatever".toList, [], cbContinue, true⟩
      ⟨[exitCmd], 4⟩).1 = addfailed ∧
    (CommandProcessor_Add false ⟨"Whatever".toList, [], cbContinue, true⟩
      ⟨[exitCmd], 4⟩).2.longest = 8 ∧
    (8 : Nat) ≠ 4 := by
  decide

/-- Claim C9 as amended.  If Add fails to obtain the backing storage for its
registry link node, it returns the failure code and leaves the registry
sequence unchanged, but the tracked longest-name length is still raised to
the failed command's name length when that is larger. -/
theorem C9_add_failure_no_registry_change (m : CMD) (s : RegState) :
    (CommandProcessor_Add false m s).1 = addfailed ∧
    (CommandProcessor_Add false m s).2.cmds = s.cmds ∧
    (CommandProcessor_Add false m s).2.longest = max s.longest m.command.length :=
  ⟨rfl, rfl, rfl⟩

def abcdefgCmd : CMD := ⟨"abcdefg".toList, [], cbContinue, true⟩

def c4State : CPState :=
  ⟨false, false, initBufferAlloc 6, 1, [abcdefgCmd], [], [], 0, false, false, false⟩

/-- Claim C4.  The buffer length indeed never exceeds the capacity and a
too-long printable byte is rejected with a bell, but not every write into the
line buffer stays within its allocated size: Init obtains exactly
`initBufferAlloc 6 = 6` bytes, typing "abcde" against registry "abcdefg"
brings the buffer to length 5, the guard `keycount < cfg.bufferSize` then
still admits the printable byte f (102), and the tentative append
`buffer[keycount++] = c; buffer[keycount] = 0` stores the NUL terminator at
offset 6 — one byte past the 6-byte allocation. -/
theorem C4_terminator_written_past_allocation :
    (runBytes [] [] [97, 98, 99, 100, 101] c4State).buffer.length = 5 ∧
    myisprint 102 = true ∧
    5 < c4State.bufferSize ∧
    tentativeAppendWrites 5 = [5, 6] ∧
    initBufferAlloc 6 ≤ 6 ∧ 6 ∈ tentativeAppendWrites 5 ∧
    (runBytes [] [] [97, 98, 99, 100, 101, 102] c4State).buffer.length =
      c4State.bufferSize := by
  decide

def aCmd2 : CMD := ⟨['A'], [], cbContinue, true⟩

def bCmd2 : CMD := ⟨['B'], [], cbContinue, true⟩

def cCmd2 : CMD := ⟨['C'], [], cbContinue, true⟩

def c5State : CPState :=
  ⟨false, false, 10, 2, [aCmd2, bCmd2, cCmd2], [], [], 0, false, false, false⟩

/-- Claim C5.  With history depth 2, submitting the distinct lines A, B, C
should leave entries [B, C].  The duplicate check at CommandProcessor.c line
517 compares against `historyBuffer[(historyCount-1)*bufferSize]`, which is
one slot before the allocation while the history is still empty: when that
out-of-bounds memory reads as an empty string the check sees a match (a
0-length mystrnicmp returns 0) and every push is skipped, leaving the history
empty instead of [B, C].  When the junk does not match (here "zz"), the
FIFO behavior the claim describes is observed. -/
theorem C5_first_push_depends_on_oob_memory :
    (runBytes [] [] [65, 13, 66, 13, 67, 13] c5State).history = [] ∧
    (runBytes ("zz".toList) [] [65, 13, 66, 13, 67, 13] c5State).history =
      [['B'], ['C']] := by
  decide

def c7State : CPState :=
  ⟨false, false, 10, 10, [aCmd2, bCmd2], [], [], 0, false, false, false⟩

/-- Claim C7 counterexample.  After submitting A then B (history count 2),
the navigation index is 1 — the slot of the just-stored entry, not the
history count 2 the claim requires — and a single recall-previous (lead-in
0x5B then 0x41) loads A, not the just-submitted B. -/
theorem C7_index_is_count_minus_one :
    (runBytes ("zz".toList) [] [65, 13, 66, 13] c7State).whereInHistory = 1 ∧
    (runBytes ("zz".toList) [] [65, 13, 66, 13] c7State).history.length = 2 ∧
    ((1 : Int) = 2 → False) ∧
    (runBytes ("zz".toList) [] [65, 13, 66, 13, 0x5B, 0x41] c7State).buffer = ['A'] ∧
    ((['A'] : List Char) = ['B'] → False) := by
  decide

def helpCmd : CMD := ⟨"Help".toList, [], cbContinue, true⟩

def c8State : CPState :=
  ⟨false, false, 10, 2, [helpCmd], [], [], 0, false, false, false⟩

/-- Claim C8.  Processing any input byte (printable append or reject,
backspace, tab completion, escape, submit, or history recall) preserves the
state invariant, and in particular leaves the line buffer either empty or
matching at least one registered command's name up to the buffer's first
space under the configured case rule. -/
theorem C8_buffer_always_valid (junkPrev junkTab : List Char) (c : Nat)
    (s : CPState) (h : cpInv s) :
    cpInv (processInputByte junkPrev junkTab c s) ∧
    ((processInputByte junkPrev junkTab c s).buffer = [] ∨
      1 ≤ (matchScan (processInputByte junkPrev junkTab c s).caseinsensitive
        (processInputByte junkPrev junkTab c s).cmds
        (processInputByte junkPrev junkTab c s).buffer).1) := by
  have h' := cpInv_processInputByte junkPrev junkTab c s h
  refine ⟨h', ?_⟩
  rcases h'.1 with hL | hR
  · exact Or.inl hL
  · exact Or.inr hR.1

/-- Witness for C8 at a concrete state: the initial state with registry
`Help` satisfies the invariant, and so does the state after the printable
byte H (0x48). -/
theorem C8_buffer_always_valid_witness :
    cpInv c8State ∧ cpInv (processInputByte [] [] 72 c8State) :=
  ⟨by decide, (C8_buffer_always_valid [] [] 72 c8State (by decide)).1⟩

theorem drop_append_add (l x : List Char) (k : Nat) :
    (l ++ x).drop (l.length + k) = x.drop k := by
  rw [List.drop_append_eq_append_drop]
  simp

/-- Claim C6.  Whenever a submit finds exactly one match whose canonical name
differs from the typed prefix by length or by case (and the name itself
contains no space), CommandMatches rewrites the live buffer to
`name ++ " " ++ original arguments`, erases the typed characters and
re-echoes the corrected text, and hands the callback the same argument
substring the typed line carried — which is also exactly what it would have
received had the full name been typed (final conjunct). -/
theorem C6_unique_match_canonicalizes (ci : Bool) (cmds : List CMD)
    (b : List Char) (m : CMD) (hb : b.length ≠ 0)
    (hscan : matchScan ci cmds b = (1, some m))
    (hname : findSpaceIdx m.command = none)
    (hdiff : compareLength b < m.command.length ∨
      strncmp b m.command (compareLength b) ≠ 0) :
    CommandMatches ci b true cmds =
      ⟨1, some m, paramsOf b, m.command ++ ' ' :: paramsOf b,
        EraseChars b.length ++ EchoString (m.command ++ ' ' :: paramsOf b)⟩ ∧
    paramsOf (m.command ++ ' ' :: paramsOf b) = paramsOf b := by
  have hsp : findSpaceIdx (m.command ++ ' ' :: paramsOf b) =
      some m.command.length := by
    rw [findSpaceIdx_append_of_none hname]
    simp [findSpaceIdx]
  have hdrop : (m.command ++ ' ' :: paramsOf b).drop (m.command.length + 1) =
      paramsOf b := by
    have := drop_append_add m.command (' ' :: paramsOf b) 1
    simpa using this
  constructor
  · unfold CommandMatches
    rw [if_neg hb]
    simp only [hscan]
    rw [if_pos ⟨trivial, trivial, hdiff⟩]
    simp only [hsp, hdrop]
  · generalize hargs : paramsOf b = args at hsp hdrop ⊢
    unfold paramsOf
    rw [hsp]
    exact hdrop

/-- Witness for C6: registry `Help`, typed line `He 12`.  The buffer becomes
`Help 12`, the display is erased (5 typed characters) and re-echoed, and the
callback argument is `12`. -/
theorem C6_unique_match_canonicalizes_witness :
    CommandMatches false ("He 12".toList) true [helpCmd] =
      ⟨1, some helpCmd, "12".toList, "Help 12".toList,
        EraseChars 5 ++ EchoString ("Help 12".toList)⟩ := by
  have h := C6_unique_match_canonicalizes false [helpCmd] ("He 12".toList)
    helpCmd (by decide) rfl (by decide) (Or.inl (by decide))
  rw [h.1]
  rfl

/-- The pair pushHistory returns, written with the surviving entries up
front: the new line lands at the tail, and `whereInHistory` is left exactly
on the slot the new line was stored in. -/
theorem pushHistory_spec (b : List Char) (hist : List (List Char))
    (depth : Nat) (hdp : depth ≠ 0) :
    pushHistory b hist depth =
      ((if hist.length = depth then hist.drop 1 else hist) ++ [b],
        ((if hist.length = depth then hist.drop 1 else hist).length : Int)) := by
  unfold pushHistory
  by_cases hfull : hist.length = depth
  · rw [if_pos hfull, if_neg hdp]
    congr 1
    · rw [if_pos hfull]
    · rw [if_pos hfull, List.length_drop]
      omega
  · rw [if_neg hfull]
    congr 1
    · rw [if_neg hfull]
    · rw [if_neg hfull]

theorem PSS_byte_leadin (junkPrev junkTab : List Char) (s : CPState) :
    ProcessStandardSequence junkPrev junkTab 0x5B s =
      (runok, { s with leadinChar := true }, []) := rfl

theorem PSS_byte_zero (junkPrev junkTab : List Char) (s : CPState) :
    ProcessStandardSequence junkPrev junkTab 0 s = (runok, s, []) := rfl

theorem PSS_byte_esc (junkPrev junkTab : List Char) (s : CPState) :
    ProcessStandardSequence junkPrev junkTab 0x1B s =
      (runok, { s with buffer := [] }, EraseChars s.buffer.length) := rfl

/-- The submit path when exactly one command matches, the callback runs and
the duplicate check passes: the buffer is cleared, the (possibly
canonicalized) line is appended to the history — evicting the oldest entry
when full — and the navigation index is left on the slot the line was stored
in. -/
theorem ProcessStandardSequence_push (junkPrev junkTab : List Char)
    (s : CPState) (m : CMD) (hb : s.buffer.length ≠ 0)
    (hmenu : (CommandMatches s.caseinsensitive s.buffer true s.cmds).menu = some m)
    (hfc : (CommandMatches s.caseinsensitive s.buffer true s.cmds).foundCount = 1)
    (hdup : mystrnicmp (CommandMatches s.caseinsensitive s.buffer true s.cmds).buffer
      (s.history.getLastD junkPrev) (s.history.getLastD junkPrev).length ≠ 0) :
    (ProcessStandardSequence junkPrev junkTab 13 s).2.1 =
      { s with
        buffer := [],
        history := (pushHistory
          (CommandMatches s.caseinsensitive s.buffer true s.cmds).buffer
          s.history s.historyDepth).1,
        whereInHistory := (pushHistory
          (CommandMatches s.caseinsensitive s.buffer true s.cmds).buffer
          s.history s.historyDepth).2,
        showPrompt := true } ∧
    (ProcessStandardSequence junkPrev junkTab 13 s).1 =
      m.callback (CommandMatches s.caseinsensitive s.buffer true s.cmds).params := by
  unfold ProcessStandardSequence
  rw [if_neg (by omega : ¬(13 : Nat) = 0), if_neg (by omega : ¬(13 : Nat) = 0x5B),
    if_neg (by omega : ¬(13 : Nat) = 0xE0), if_neg (by omega : ¬(13 : Nat) = 0x09),
    if_neg (by omega : ¬(13 : Nat) = 0x1B), if_neg (by omega : ¬(13 : Nat) = 0x08),
    if_pos (Or.inl rfl : (13 : Nat) = 13 ∨ (13 : Nat) = 10), if_pos hb]
  simp only [hmenu]
  rw [if_pos hfc, if_pos hdup]
  exact ⟨rfl, rfl⟩

theorem processInputByte_noleadin (junkPrev junkTab : List Char) (c : Nat)
    (s : CPState) (hl : s.leadinChar = false) :
    processInputByte junkPrev junkTab c s =
      (ProcessStandardSequence junkPrev junkTab c s).2.1 := by
  unfold processInputByte
  rw [hl]
  simp

theorem processInputByte_withleadin (junkPrev junkTab : List Char) (c : Nat)
    (s : CPState) (hl : s.leadinChar = true) :
    processInputByte junkPrev junkTab c s =
      (ProcessStandardSequence junkPrev junkTab (ProcessComplexSequence c s).1
        (ProcessComplexSequence c s).2.1).2.1 := by
  unfold processInputByte
  rw [hl]
  simp

theorem PCS_up (s : CPState) (hg1 : s.history.length ≠ 0)
    (hg2 : 0 ≤ s.whereInHistory - 1) :
    ProcessComplexSequence 0x41 s =
      (0, { s with
            buffer := s.history.getD (s.whereInHistory - 1).toNat [],
            whereInHistory := s.whereInHistory - 1,
            leadinChar := false },
        EraseChars s.buffer.length ++
          EchoString (s.history.getD (s.whereInHistory - 1).toNat [])) := by
  unfold ProcessComplexSequence
  rw [if_neg (by omega : ¬((0x41 : Nat) = 0x42 ∨ (0x41 : Nat) = 0x50)),
    if_pos (Or.inl rfl : (0x41 : Nat) = 0x41 ∨ (0x41 : Nat) = 0x48),
    if_pos ⟨hg1, hg2⟩]

theorem PCS_up_cancel (s : CPState)
    (hg : ¬(s.history.length ≠ 0 ∧ 0 ≤ s.whereInHistory - 1)) :
    ProcessComplexSequence 0x41 s =
      (0x1B, { s with whereInHistory := 0, leadinChar := false }, []) := by
  unfold ProcessComplexSequence
  rw [if_neg (by omega : ¬((0x41 : Nat) = 0x42 ∨ (0x41 : Nat) = 0x50)),
    if_pos (Or.inl rfl : (0x41 : Nat) = 0x41 ∨ (0x41 : Nat) = 0x48),
    if_neg hg]

/-- One recall-previous (lead-in 0x5B then up-arrow 0x41) on a state whose
navigation index sits on the last stored entry: with two or more entries it
loads the entry before the last one; with exactly one entry it cancels and
clears the buffer. -/
theorem recall_up_behavior (junkPrev junkTab : List Char) (s' : CPState)
    (hlead : s'.leadinChar = false)
    (hw : s'.whereInHistory = (s'.history.length : Int) - 1)
    (hne : s'.history.length ≠ 0) :
    (2 ≤ s'.history.length →
      (runBytes junkPrev junkTab [0x5B, 0x41] s').buffer =
        s'.history.getD (s'.history.length - 2) []) ∧
    (s'.history.length = 1 →
      (runBytes junkPrev junkTab [0x5B, 0x41] s').buffer = []) := by
  simp only [runBytes, List.foldl_cons, List.foldl_nil]
  rw [processInputByte_noleadin _ _ _ _ hlead, PSS_byte_leadin]
  constructor
  · intro h2
    rw [processInputByte_withleadin _ _ _ _ rfl]
    dsimp only
    rw [PCS_up { s' with leadinChar := true }
      (show s'.history.length ≠ 0 from hne)
      (by show 0 ≤ s'.whereInHistory - 1; omega)]
    dsimp only
    rw [PSS_byte_zero]
    show s'.history.getD (s'.whereInHistory - 1).toNat [] =
      s'.history.getD (s'.history.length - 2) []
    congr 1
    omega
  · intro h1
    rw [processInputByte_withleadin _ _ _ _ rfl]
    dsimp only
    rw [PCS_up_cancel { s' with leadinChar := true } (by
      show ¬(s'.history.length ≠ 0 ∧ 0 ≤ s'.whereInHistory - 1)
      omega)]
    dsimp only
    rw [PSS_byte_esc]

/-- Claim C7 as amended.  After every successful submit that appends a line
to history, the navigation index equals the history count minus one — the
slot of the just-stored entry — so one subsequent recall-previous (lead-in
then up-arrow) loads the entry before the just-submitted line, and clears
the buffer when the just-submitted line is the oldest stored entry. -/
theorem C7_recall_previous_behavior (junkPrev junkTab : List Char)
    (s : CPState) (m : CMD) (hb : s.buffer.length ≠ 0)
    (hmenu : (CommandMatches s.caseinsensitive s.buffer true s.cmds).menu = some m)
    (hfc : (CommandMatches s.caseinsensitive s.buffer true s.cmds).foundCount = 1)
    (hdup : mystrnicmp (CommandMatches s.caseinsensitive s.buffer true s.cmds).buffer
      (s.history.getLastD junkPrev) (s.history.getLastD junkPrev).length ≠ 0)
    (hdp : s.historyDepth ≠ 0) (hlead : s.leadinChar = false) :
    (ProcessStandardSequence junkPrev junkTab 13 s).2.1.whereInHistory =
      ((ProcessStandardSequence junkPrev junkTab 13 s).2.1.history.length : Int) - 1 ∧
    (ProcessStandardSequence junkPrev junkTab 13 s).2.1.history ≠ [] ∧
    (2 ≤ (ProcessStandardSequence junkPrev junkTab 13 s).2.1.history.length →
      (runBytes junkPrev junkTab [0x5B, 0x41]
          ((ProcessStandardSequence junkPrev junkTab 13 s).2.1)).buffer =
        (ProcessStandardSequence junkPrev junkTab 13 s).2.1.history.getD
          ((ProcessStandardSequence junkPrev junkTab 13 s).2.1.history.length - 2) []) ∧
    ((ProcessStandardSequence junkPrev junkTab 13 s).2.1.history.length = 1 →
      (runBytes junkPrev junkTab [0x5B, 0x41]
          ((ProcessStandardSequence junkPrev junkTab 13 s).2.1)).buffer = []) := by
  obtain ⟨hstate, -⟩ :=
    ProcessStandardSequence_push junkPrev junkTab s m hb hmenu hfc hdup
  rw [hstate, pushHistory_spec _ _ _ hdp]
  set kept := (if s.history.length = s.historyDepth then s.history.drop 1
    else s.history) with hkept
  set rb := (CommandMatches s.caseinsensitive s.buffer true s.cmds).buffer with hrb
  have hlen : (kept ++ [rb]).length = kept.length + 1 := by
    rw [List.length_append]
    rfl
  have hw : ((kept.length : Int)) = ((kept ++ [rb]).length : Int) - 1 := by
    rw [hlen]
    push_cast
    omega
  have hrec := recall_up_behavior junkPrev junkTab
    { s with
      buffer := [],
      history := kept ++ [rb],
      whereInHistory := (kept.length : Int),
      showPrompt := true }
    hlead hw (by show (kept ++ [rb]).length ≠ 0; rw [hlen]; omega)
  exact ⟨hw, by show kept ++ [rb] ≠ []; simp, hrec.1, hrec.2⟩

def c7WitState : CPState :=
  ⟨false, false, 10, 10, [aCmd2, bCmd2], ['B'], [['A']], 1, false, false, false⟩

/-- Witness for the amended C7: submitting B with history [A] stores B, puts
the index on B's slot (count - 1), and one recall-previous then loads A. -/
theorem C7_recall_previous_behavior_witness :
    (ProcessStandardSequence ("q".toList) [] 13 c7WitState).2.1.whereInHistory =
      ((ProcessStandardSequence ("q".toList) [] 13
        c7WitState).2.1.history.length : Int) - 1 ∧
    (runBytes ("q".toList) [] [0x5B, 0x41]
        ((ProcessStandardSequence ("q".toList) [] 13 c7WitState).2.1)).buffer =
      (ProcessStandardSequence ("q".toList) [] 13 c7WitState).2.1.history.getD
        ((ProcessStandardSequence ("q".toList) [] 13
          c7WitState).2.1.history.length - 2) [] := by
  have h := C7_recall_previous_behavior ("q".toList) [] c7WitState bCmd2
    (by decide) rfl rfl (by decide) (by decide) rfl
  exact ⟨h.1, h.2.2.1 (by decide)⟩

def echoCmd : CMD := ⟨"Echo".toList, [], cbContinue, true⟩

/-- Claim C10.  On a submit that executes a command, the history
duplicate-suppression check uses mystrnicmp — case-insensitive — limited to
the stored entry's length, regardless of the configured case rule: whenever
the executed line either extends the most recent entry (matches it on a
prefix of the entry's length) or differs from it only in letter case, the
callback still runs but the line is not appended to history. -/
theorem C10_duplicate_check_skips_push (junkPrev junkTab : List Char)
    (s : CPState) (m : CMD) (hb : s.buffer.length ≠ 0)
    (hmenu : (CommandMatches s.caseinsensitive s.buffer true s.cmds).menu = some m)
    (hfc : (CommandMatches s.caseinsensitive s.buffer true s.cmds).foundCount = 1)
    (hskip : (CommandMatches s.caseinsensitive s.buffer true s.cmds).buffer.take
        (s.history.getLastD junkPrev).length = s.history.getLastD junkPrev ∨
      (CommandMatches s.caseinsensitive s.buffer true s.cmds).buffer.map mytolower =
        (s.history.getLastD junkPrev).map mytolower) :
    (ProcessStandardSequence junkPrev junkTab 13 s).2.1.history = s.history ∧
    (ProcessStandardSequence junkPrev junkTab 13 s).2.1.whereInHistory =
      s.whereInHistory ∧
    (ProcessStandardSequence junkPrev junkTab 13 s).1 =
      m.callback (CommandMatches s.caseinsensitive s.buffer true s.cmds).params := by
  set rb := (CommandMatches s.caseinsensitive s.buffer true s.cmds).buffer with hrb
  set prev := s.history.getLastD junkPrev with hprev
  have hdup0 : mystrnicmp rb prev prev.length = 0 := by
    by_cases hn : prev.length = 0
    · simp [mystrnicmp, hn]
    · apply mystrnicmp_eq_zero_of_lower
      intro i hi
      rcases hskip with htake | hmap
      · have hpt : prev.take prev.length = prev := List.take_length prev
        have : rb.take prev.length = prev.take prev.length := by
          rw [hpt]
          exact htake
        rw [charAtIdx_of_take_eq this hi]
      · have hlen : rb.length = prev.length := by
          have := congrArg List.length hmap
          simpa using this
        have h1 : mytolower (charAtIdx rb i) = charAtIdx (rb.map mytolower) i :=
          (charAtIdx_map mytolower (by omega)).symm
        have h2 : charAtIdx (prev.map mytolower) i = mytolower (charAtIdx prev i) :=
          charAtIdx_map mytolower (by omega)
        rw [h1, hmap, h2]
  unfold ProcessStandardSequence
  rw [if_neg (by omega : ¬(13 : Nat) = 0), if_neg (by omega : ¬(13 : Nat) = 0x5B),
    if_neg (by omega : ¬(13 : Nat) = 0xE0), if_neg (by omega : ¬(13 : Nat) = 0x09),
    if_neg (by omega : ¬(13 : Nat) = 0x1B), if_neg (by omega : ¬(13 : Nat) = 0x08),
    if_pos (Or.inl rfl : (13 : Nat) = 13 ∨ (13 : Nat) = 10), if_pos hb]
  simp only [hmenu]
  rw [if_pos hfc, if_neg (not_not_intro hdup0)]
  exact ⟨rfl, rfl, rfl⟩

def c10State : CPState :=
  ⟨false, false, 20, 4, [echoCmd], "Echo on".toList, ["Echo".toList], 1,
    false, false, false⟩

/-- Witness for C10: a case-sensitive processor with history [Echo] executes
the line `Echo on`; because `Echo on` matches the stored entry `Echo` over
the entry's own length, the line is not appended to history. -/
theorem C10_duplicate_check_skips_push_witness :
    (ProcessStandardSequence ("q".toList) [] 13 c10State).2.1.history =
      ["Echo".toList] ∧
    (ProcessStandardSequence ("q".toList) [] 13 c10State).1 =
      cbContinue (CommandMatches false ("Echo on".toList) true [echoCmd]).params := by
  have h := C10_duplicate_check_skips_push ("q".toList) [] c10State echoCmd
    (by decide) rfl rfl (Or.inl (by decide))
  exact ⟨h.1, h.2.2⟩
